import Mathlib

/-!
Shallow embedding of the fixed-width big-integer engine in `src/lab2.py`
(class `BigInt`), together with proofs about its operations.

Modelling conventions:
* Python machine behaviour that can raise is modelled in `Except PyErr`:
  list subscripts out of range raise `IndexError`, `%` and `//` by zero raise
  `ZeroDivisionError`, the modulo operation's explicit check raises
  `ValueError`, and using the unimplemented `//` operator on two `BigInt`s
  raises `TypeError`.
* Python `%` and `//` on integers are floor-based, which is exactly
  `Int.fmod` / `Int.fdiv`.
* `for i in range(n)` loops that mutate a list become `loopUp` folds over an
  accumulator; `for j in range(n-1, -1, -1)` becomes `loopDown`.
* The Python default constructor `BigInt()` always produces a value with
  `base = 10`, `size = 2048`, `value = [0] * 2048`; the literal 2048 from
  the source is kept literally.
-/

set_option maxRecDepth 8000

namespace Lab2

/-- The runtime errors the Python code can raise. -/
inductive PyErr : Type
  | indexError
  | zeroDivisionError
  | valueError
  | typeError
deriving DecidableEq

/-- The `BigInt` object: fields `base`, `size`, `value` as in `__init__`. -/
structure BigInt : Type where
  base : Int
  size : Nat
  value : List Int
deriving DecidableEq

deriving instance DecidableEq for Except

/-- Python `x % m` on ints: floor remainder, `ZeroDivisionError` on `m = 0`. -/
def pymod (x m : Int) : Except PyErr Int :=
  if m = 0 then .error .zeroDivisionError else .ok (Int.fmod x m)

/-- Python `x // m` on ints: floor division, `ZeroDivisionError` on `m = 0`. -/
def pydiv (x m : Int) : Except PyErr Int :=
  if m = 0 then .error .zeroDivisionError else .ok (Int.fdiv x m)

/-- Python list read `l[i]` (nonnegative index): `IndexError` when out of range. -/
def getE (l : List Int) (i : Nat) : Except PyErr Int :=
  match l.get? i with
  | some v => .ok v
  | none => .error .indexError

/-- Python list write `l[i] = x` (nonnegative index): `IndexError` when out of range. -/
def setE (l : List Int) (i : Nat) (x : Int) : Except PyErr (List Int) :=
  if i < l.length then .ok (l.set i x) else .error .indexError

/-- `for i in range(start, start+n)` over a fallible loop body. -/
def loopUp {α : Type} (f : Nat → α → Except PyErr α) : Nat → Nat → α → Except PyErr α
  | _, 0, acc => .ok acc
  | i, n+1, acc => (f i acc).bind (loopUp f (i+1) n)

/-- `for j in range(n-1, -1, -1)` over a fallible loop body. -/
def loopDown {α : Type} (f : Nat → α → Except PyErr α) : Nat → α → Except PyErr α
  | 0, acc => .ok acc
  | j+1, acc => (f j acc).bind (loopDown f j)

@[simp] theorem ebind_ok {α β : Type} (a : α) (f : α → Except PyErr β) :
    (Except.ok a : Except PyErr α).bind f = f a := rfl

@[simp] theorem ebind_err {α β : Type} (e : PyErr) (f : α → Except PyErr β) :
    (Except.error e : Except PyErr α).bind f = Except.error e := rfl

@[simp] theorem emap_ok {α β : Type} (a : α) (f : α → β) :
    (Except.ok a : Except PyErr α).map f = Except.ok (f a) := rfl

@[simp] theorem emap_err {α β : Type} (e : PyErr) (f : α → β) :
    (Except.error e : Except PyErr α).map f = Except.error e := rfl

/-- `from_int`: repeatedly take `num % base` and divide `num //= base`,
for `size` iterations.  (Construction in the program always uses a nonzero
base, namely the default 10, so the `ZeroDivisionError` of `% 0` cannot
occur and is not modelled here.) -/
def fromIntList (base : Int) : Int → Nat → List Int
  | _, 0 => []
  | n, k+1 => Int.fmod n base :: fromIntList base (Int.fdiv n base) k

/-- `BigInt(n)` / `BigInt(n, base, size)` with an int argument:
allocate `[0]*size` and fill it by `from_int`. -/
def BigInt.ofInt (n : Int) (base : Int := 10) (size : Nat := 2048) : BigInt :=
  ⟨base, size, fromIntList base n size⟩

/-- `BigInt()`: the default-constructed zero value (base 10, 2048 zero digits). -/
def defaultBig : BigInt := ⟨10, 2048, List.replicate 2048 0⟩

/-- `__eq__`: element-wise comparison of the two digit lists only. -/
def beq (a b : BigInt) : Bool := a.value == b.value

/-- Digit value of one character as accepted by Python `int(c, base)`:
`0`-`9` and letters, valid when the value is below `base` (and the base is
in `2..36`); otherwise `ValueError`. -/
def parseDigit (base : Int) (c : Char) : Except PyErr Int :=
  if base < 2 ∨ 36 < base then .error .valueError
  else
    let v : Option Int :=
      if '0' ≤ c ∧ c ≤ '9' then some ((c.toNat : Int) - ('0'.toNat : Int))
      else if 'a' ≤ c ∧ c ≤ 'z' then some ((c.toNat : Int) - ('a'.toNat : Int) + 10)
      else if 'A' ≤ c ∧ c ≤ 'Z' then some ((c.toNat : Int) - ('A'.toNat : Int) + 10)
      else none
    match v with
    | some x => if x < base then .ok x else .error .valueError
    | none => .error .valueError

/-- The list comprehension `[int(digit, base) for digit in num_str]`:
left to right, aborting on the first invalid character. -/
def parseDigits (base : Int) : List Char → Except PyErr (List Int)
  | [] => .ok []
  | c :: cs =>
    (parseDigit base c).bind fun d =>
    (parseDigits base cs).bind fun ds =>
    .ok (d :: ds)

/-- `BigInt(s, base, size)` with a string argument (`from_str`): reverse the
string, parse every character, and *replace* `value` with the parsed list —
its length is the string length, not `size`. -/
def fromStr (s : List Char) (base : Int := 10) (size : Nat := 2048) : Except PyErr BigInt :=
  (parseDigits base s.reverse).map (fun ds => ⟨base, size, ds⟩)

/-- `__rshift__`: `BigInt(value=self.value[shift:])` — drop the `shift`
least-significant digits; the result is wrapped by the default constructor
(base 10, size 2048). -/
def rshift (a : BigInt) (k : Nat) : BigInt := ⟨10, 2048, a.value.drop k⟩

/-- One iteration of the `__add__` loop: `temp_sum = a[i] + b[i] + carry`,
`result[i] = temp_sum % base`, `carry = temp_sum // base`. -/
def addStep (a b : BigInt) (i : Nat) : List Int × Int → Except PyErr (List Int × Int)
  | (r, carry) =>
    (getE a.value i).bind fun ai =>
    (getE b.value i).bind fun bi =>
      let t := ai + bi + carry
      (pymod t a.base).bind fun d =>
      (setE r i d).bind fun r' =>
      (pydiv t a.base).bind fun q =>
      .ok (r', q)

/-- `__add__`: loop `i` over `range(self.size)` into a fresh `BigInt()`,
final carry discarded. -/
def add (a b : BigInt) : Except PyErr BigInt :=
  (loopUp (addStep a b) 0 a.size (List.replicate 2048 0, 0)).map
    (fun rc => ⟨10, 2048, rc.1⟩)

/-- One iteration of the `__sub__` loop: digit difference with borrow. -/
def subStep (a b : BigInt) (i : Nat) : List Int × Int → Except PyErr (List Int × Int)
  | (r, borrow) =>
    (getE a.value i).bind fun ai =>
    (getE b.value i).bind fun bi =>
      let t := ai - bi - borrow
      if t < 0 then
        (setE r i (t + a.base)).bind fun r' => .ok (r', 1)
      else
        (setE r i t).bind fun r' => .ok (r', 0)

/-- `__sub__`: loop `i` over `range(self.size)` into a fresh `BigInt()`. -/
def sub (a b : BigInt) : Except PyErr BigInt :=
  (loopUp (subStep a b) 0 a.size (List.replicate 2048 0, 0)).map
    (fun rc => ⟨10, 2048, rc.1⟩)

/-- One inner iteration of the `__mul__` loops, exactly the source order:
`result[i+j] += a[i] * b[j]`, then `result[i+j+1] += result[i+j] // base`
(the read of `result[i+j+1]` happens before the division), then
`result[i+j] %= base`. -/
def mulStep (a b : BigInt) (i j : Nat) (r : List Int) : Except PyErr (List Int) :=
  (getE a.value i).bind fun ai =>
  (getE b.value j).bind fun bj =>
  (getE r (i+j)).bind fun rij =>
  (setE r (i+j) (rij + ai * bj)).bind fun r1 =>
  (getE r1 (i+j+1)).bind fun rn =>
  (getE r1 (i+j)).bind fun rij1 =>
  (pydiv rij1 a.base).bind fun q =>
  (setE r1 (i+j+1) (rn + q)).bind fun r2 =>
  (getE r2 (i+j)).bind fun rij2 =>
  (pymod rij2 a.base).bind fun d =>
  setE r2 (i+j) d

/-- `__mul__`: `for i in range(self.size): for j in range(self.size - i)`
into a fresh `BigInt()` (whose digit list has exactly 2048 slots). -/
def mul (a b : BigInt) : Except PyErr BigInt :=
  (loopUp (fun i r => loopUp (mulStep a b i) 0 (a.size - i) r) 0 a.size
      (List.replicate 2048 0)).map (fun r => ⟨10, 2048, r⟩)

/-- One iteration of the `__mod__` loop at position `j`:
`result[j] %= m[j]`, and when `j > 0` also
`borrow = (result[j-1] + result[j] * self.base) // m[j]`,
`result[j-1] -= borrow`. -/
def modStep (B : Int) (m : BigInt) (j : Nat) (r : List Int) : Except PyErr (List Int) :=
  (getE r j).bind fun rj =>
  (getE m.value j).bind fun mj =>
  (pymod rj mj).bind fun d =>
  (setE r j d).bind fun r1 =>
  if 0 < j then
    (getE r1 (j-1)).bind fun rk =>
    (getE r1 j).bind fun rj1 =>
    (getE m.value j).bind fun mj1 =>
    (pydiv (rk + rj1 * B) mj1).bind fun bw =>
    setE r1 (j-1) (rk - bw)
  else .ok r1

/-- `__mod__`.  Checks in source order: modulus equal (as digit lists) to
`BigInt()` or `BigInt(0)` raises the zero-modulus `ValueError`; a zero
`self` (first as `self == BigInt()`, then the `for … else` all-zero scan)
returns `BigInt()`; otherwise the per-position reduction loop runs over a
copy of `self.value`, and a `ZeroDivisionError` inside it is re-raised as
the same zero-modulus `ValueError`. -/
def mod (a m : BigInt) : Except PyErr BigInt :=
  if beq m defaultBig || beq m (BigInt.ofInt 0 10 2048) then .error .valueError
  else if beq a defaultBig then .ok defaultBig
  else if a.value.all (fun d => d == 0) then .ok defaultBig
  else
    match loopDown (modStep a.base m) a.size a.value with
    | .error .zeroDivisionError => .error .valueError
    | .error e => .error e
    | .ok r => .ok ⟨10, 2048, r⟩

/-- `gcd`'s Euclidean loop `while b != BigInt(): a, b = b, a % b`, with an
explicit iteration budget: `none` means the budget was exhausted before the
loop exited, `some` is the Python outcome (the source's entry check
`if b == BigInt(): return a` coincides with the loop guard). -/
def gcdLoop : Nat → BigInt → BigInt → Option (Except PyErr BigInt)
  | 0, a, b => if beq b defaultBig then some (.ok a) else none
  | n+1, a, b =>
    if beq b defaultBig then some (.ok a)
    else
      match mod a b with
      | .error e => some (.error e)
      | .ok r => gcdLoop n b r

/-- `lcm`: `gcd_ab = self.gcd(other)`; zero gcd returns `BigInt()`;
otherwise `(self * other) // gcd_ab` first evaluates the product and then
applies `//` to two `BigInt`s — the class defines no `__floordiv__`, so
that operator raises `TypeError`. -/
def lcm (fuel : Nat) (a b : BigInt) : Option (Except PyErr BigInt) :=
  match gcdLoop fuel a b with
  | none => none
  | some (.error e) => some (.error e)
  | some (.ok g) =>
    if beq g defaultBig then some (.ok defaultBig)
    else some (match mul a b with
      | .error e => .error e
      | .ok _ => .error .typeError)

/-- `mod_add`: `(self + other) % mod`. -/
def modAdd (a b m : BigInt) : Except PyErr BigInt :=
  (add a b).bind fun s => mod s m

/-- `mod_sub`: `(self - other) % mod`. -/
def modSub (a b m : BigInt) : Except PyErr BigInt :=
  (sub a b).bind fun s => mod s m

/-- The `while exponent > 0` loop of `mod_pow`: multiply into the
accumulator on an odd exponent, halve the exponent, square the running
base power. -/
def modPowLoop (m : BigInt) (e : Nat) (result bp : BigInt) : Except PyErr BigInt :=
  if h : e = 0 then .ok result
  else
    (if e % 2 = 1 then (mul result bp).bind fun p => mod p m
     else .ok result).bind fun result2 =>
    (mul bp bp).bind fun s =>
    (mod s m).bind fun bp2 =>
    modPowLoop m (e / 2) result2 bp2
termination_by e
decreasing_by
  exact Nat.div_lt_self (Nat.pos_of_ne_zero h) (by decide)

/-- `mod_pow`: `result = BigInt(1)`, `base_power = self % mod` (evaluated
before the loop, so a failing reduction aborts even for exponent 0), then
the square-and-multiply loop on the native exponent. -/
def modPow (a : BigInt) (e : Nat) (m : BigInt) : Except PyErr BigInt :=
  (mod a m).bind fun bp => modPowLoop m e (BigInt.ofInt 1 10 2048) bp

/-- Termination measure for the Euclidean loop: the sum of the absolute
values of the digits. -/
def digitsSum (l : List Int) : Nat := (l.map Int.natAbs).sum

/-- Recursive description of the `__add__` loop on two digit lists of the
same length: digit `(a+b+c) % base` with carry `(a+b+c) // base`.  Proved
below to agree with the loop for full-size operands. -/
def addDigits (base : Int) : List Int → List Int → Int → List Int
  | a :: as, b :: bs, c =>
    Int.fmod (a + b + c) base :: addDigits base as bs (Int.fdiv (a + b + c) base)
  | _, _, _ => []

/-- Recursive description of the `__sub__` loop: digit `a - b - borrow`,
corrected by `+ base` with borrow-out 1 when negative. -/
def subDigits (base : Int) : List Int → List Int → Int → List Int
  | a :: as, b :: bs, c =>
    if a - b - c < 0 then (a - b - c + base) :: subDigits base as bs 1
    else (a - b - c) :: subDigits base as bs 0
  | _, _, _ => []

/-- The integer a little-endian digit list denotes in the given base. -/
def digitsVal (base : Int) : List Int → Int
  | [] => 0
  | d :: ds => d + base * digitsVal base ds

/-- The sample values of the program's demo block (constructed with
`BigInt(12345)` etc., hence full-size). -/
def sampleA : BigInt := BigInt.ofInt 12345 10 2048

def sampleB : BigInt := BigInt.ofInt 67890 10 2048

def sampleM : BigInt := BigInt.ofInt 100 10 2048

/-! Section: Basic inversion and evaluation lemmas -/

theorem ebind_ok_iff {α β : Type} {e : Except PyErr α} {f : α → Except PyErr β} {b : β} :
    e.bind f = .ok b ↔ ∃ a, e = .ok a ∧ f a = .ok b := by
  cases e <;> simp [Except.bind]

theorem getE_ok_iff {l : List Int} {i : Nat} {v : Int} :
    getE l i = .ok v ↔ l.get? i = some v := by
  unfold getE; cases h : l.get? i <;> simp

theorem getE_eq_ok {l : List Int} {i : Nat} (h : i < l.length) :
    getE l i = .ok (l.get ⟨i, h⟩) := by
  unfold getE; rw [List.get?_eq_get h]

theorem getE_eq_err {l : List Int} {i : Nat} (h : l.length ≤ i) :
    getE l i = .error .indexError := by
  unfold getE; rw [List.get?_eq_none.mpr h]

theorem setE_eq_ok {l : List Int} {i : Nat} (x : Int) (h : i < l.length) :
    setE l i x = .ok (l.set i x) := by
  unfold setE; rw [if_pos h]

theorem setE_ok_iff {l r : List Int} {i : Nat} {x : Int} :
    setE l i x = .ok r ↔ i < l.length ∧ r = l.set i x := by
  unfold setE; split
  · rename_i hlt; simp [hlt, eq_comm]
  · rename_i hge; simp [hge]

theorem pymod_eq_ok {x m : Int} (h : m ≠ 0) : pymod x m = .ok (Int.fmod x m) := by
  unfold pymod; rw [if_neg h]

theorem pymod_ok_iff {x m d : Int} : pymod x m = .ok d ↔ m ≠ 0 ∧ d = Int.fmod x m := by
  unfold pymod; split
  · rename_i h0; simp [h0]
  · rename_i h0; simp [h0, eq_comm]

theorem pydiv_eq_ok {x m : Int} (h : m ≠ 0) : pydiv x m = .ok (Int.fdiv x m) := by
  unfold pydiv; rw [if_neg h]

theorem pydiv_ok_iff {x m d : Int} : pydiv x m = .ok d ↔ m ≠ 0 ∧ d = Int.fdiv x m := by
  unfold pydiv; split
  · rename_i h0; simp [h0]
  · rename_i h0; simp [h0, eq_comm]

theorem fromIntList_length (base : Int) : ∀ (n : Int) (k : Nat), (fromIntList base n k).length = k := by
  intro n k
  induction k generalizing n with
  | zero => rfl
  | succ k ih => simp [fromIntList, ih]

theorem fromIntList_zero : ∀ k : Nat, fromIntList 10 0 k = List.replicate k 0 := by
  intro k
  induction k with
  | zero => rfl
  | succ k ih => simp [fromIntList, ih, List.replicate_succ]

theorem beq_true_iff {a b : BigInt} : beq a b = true ↔ a.value = b.value := by
  simp [beq]

theorem beq_false_iff {a b : BigInt} : beq a b = false ↔ a.value ≠ b.value := by
  simp [beq]

/-! Section: Loop combinator lemmas -/

theorem loopUp_succ_end {α : Type} (f : Nat → α → Except PyErr α) (n : Nat) :
    ∀ (i : Nat) (acc : α), loopUp f i (n+1) acc = (loopUp f i n acc).bind (f (i+n)) := by
  induction n with
  | zero =>
    intro i acc
    have l1 : loopUp f i (0+1) acc = (f i acc).bind (loopUp f (i+1) 0) := rfl
    have l2 : loopUp f i 0 acc = .ok acc := rfl
    rw [l1, l2, ebind_ok]
    cases h : f i acc with
    | error e => rw [ebind_err]; simp [h]
    | ok v => rw [ebind_ok]; simp [loopUp, h]
  | succ n ih =>
    intro i acc
    have l1 : loopUp f i (n+1+1) acc = (f i acc).bind (loopUp f (i+1) (n+1)) := rfl
    have l2 : loopUp f i (n+1) acc = (f i acc).bind (loopUp f (i+1) n) := rfl
    rw [l1, l2]
    cases h : f i acc with
    | error e => rw [ebind_err, ebind_err, ebind_err]
    | ok v =>
      rw [ebind_ok, ebind_ok, ih (i+1) v]
      have e : i + 1 + n = i + (n+1) := by omega
      rw [e]

theorem loopUp_ok_of_steps {α : Type} (P : α → Prop) (f : Nat → α → Except PyErr α) :
    ∀ (n i : Nat) (acc : α),
      (∀ k acc', i ≤ k → k < i + n → P acc' → ∃ acc'', f k acc' = .ok acc'' ∧ P acc'') →
      P acc → ∃ r, loopUp f i n acc = .ok r ∧ P r := by
  intro n
  induction n with
  | zero => exact fun i acc _ hP => ⟨acc, rfl, hP⟩
  | succ n ih =>
    intro i acc hstep hP
    obtain ⟨a1, hf, hP1⟩ := hstep i acc le_rfl (by omega) hP
    obtain ⟨r, hr, hPr⟩ :=
      ih (i+1) a1 (fun k acc' hk1 hk2 => hstep k acc' (by omega) (by omega)) hP1
    exact ⟨r, by simp [loopUp, hf, hr], hPr⟩

/-! Section: Characterisation of the `__mod__` reduction loop -/

theorem modStep_ok {B : Int} {m : BigInt} {j : Nat} {r r' : List Int}
    (h : modStep B m j r = .ok r') :
    r'.length = r.length ∧
    (∀ t, j < t → r'.get? t = r.get? t) ∧
    (∃ x mj, m.value.get? j = some mj ∧ mj ≠ 0 ∧ r'.get? j = some (Int.fmod x mj)) := by
  unfold modStep at h
  rw [ebind_ok_iff] at h; obtain ⟨rj, hrj, h⟩ := h
  rw [ebind_ok_iff] at h; obtain ⟨mj, hmj, h⟩ := h
  rw [ebind_ok_iff] at h; obtain ⟨d, hd, h⟩ := h
  rw [ebind_ok_iff] at h; obtain ⟨r1, hr1, h⟩ := h
  rw [getE_ok_iff] at hrj hmj
  rw [pymod_ok_iff] at hd
  rw [setE_ok_iff] at hr1
  obtain ⟨hjlen, rfl⟩ := hr1
  by_cases hj : 0 < j
  · rw [if_pos hj] at h
    rw [ebind_ok_iff] at h; obtain ⟨rk, hrk, h⟩ := h
    rw [ebind_ok_iff] at h; obtain ⟨rj1, hrj1, h⟩ := h
    rw [ebind_ok_iff] at h; obtain ⟨mj1, hmj1, h⟩ := h
    rw [ebind_ok_iff] at h; obtain ⟨bw, hbw, h⟩ := h
    rw [setE_ok_iff] at h
    obtain ⟨hlen2, rfl⟩ := h
    refine ⟨by simp, ?_, ?_⟩
    · intro t ht
      rw [List.get?_set_ne _ _ (by omega), List.get?_set_ne _ _ (by omega)]
    · refine ⟨rj, mj, hmj, hd.1, ?_⟩
      rw [List.get?_set_ne _ _ (by omega), List.get?_set_eq_of_lt _ hjlen, hd.2]
  · rw [if_neg hj] at h
    cases h
    refine ⟨by simp, ?_, ?_⟩
    · intro t ht
      rw [List.get?_set_ne _ _ (by omega)]
    · exact ⟨rj, mj, hmj, hd.1, by rw [List.get?_set_eq_of_lt _ hjlen, hd.2]⟩

theorem loopDown_char {B : Int} {m : BigInt} :
    ∀ (n : Nat) (acc r : List Int), loopDown (modStep B m) n acc = .ok r →
      r.length = acc.length ∧
      (∀ t, n ≤ t → r.get? t = acc.get? t) ∧
      (∀ j, j < n → ∃ x mj, m.value.get? j = some mj ∧ mj ≠ 0 ∧
        r.get? j = some (Int.fmod x mj)) := by
  intro n
  induction n with
  | zero =>
    intro acc r h
    cases h
    exact ⟨rfl, fun _ _ => rfl, fun j hj => absurd hj (by omega)⟩
  | succ n ih =>
    intro acc r h
    have h' : (modStep B m n acc).bind (loopDown (modStep B m) n) = .ok r := h
    rw [ebind_ok_iff] at h'
    obtain ⟨acc1, hstep, hrest⟩ := h'
    obtain ⟨hlen1, hgt1, x, mj, hmv, hmj0, hpos1⟩ := modStep_ok hstep
    obtain ⟨hlenr, hger, hltr⟩ := ih acc1 r hrest
    refine ⟨hlenr.trans hlen1, ?_, ?_⟩
    · intro t ht
      rw [hger t (by omega), hgt1 t (by omega)]
    · intro j hj
      rcases Nat.lt_or_ge j n with hjn | hjn
      · exact hltr j hjn
      · have hjeq : j = n := by omega
        subst hjeq
        exact ⟨x, mj, hmv, hmj0, by rw [hger j le_rfl, hpos1]⟩

/-! Section: `__mul__` always overruns the result array for full-size operands -/

theorem mulStep0_ok (a b : BigInt) (ha : a.value ≠ []) (hB : a.base ≠ 0)
    (hb : 2048 ≤ b.value.length) (j : Nat) (hj : j + 1 < 2048)
    (r : List Int) (hr : r.length = 2048) :
    ∃ r', mulStep a b 0 j r = .ok r' ∧ r'.length = 2048 := by
  have h0 : 0 < a.value.length := List.length_pos.mpr ha
  have hbj : j < b.value.length := by omega
  have hrj : j < r.length := by omega
  obtain ⟨a0, ha0⟩ : ∃ v, getE a.value 0 = Except.ok v := ⟨_, getE_eq_ok h0⟩
  obtain ⟨bj, hbj'⟩ : ∃ v, getE b.value j = Except.ok v := ⟨_, getE_eq_ok hbj⟩
  obtain ⟨rj, hrj'⟩ : ∃ v, getE r j = Except.ok v := ⟨_, getE_eq_ok hrj⟩
  have hs1 : setE r j (rj + a0 * bj) = .ok (r.set j (rj + a0 * bj)) := setE_eq_ok _ hrj
  have hl1 : (r.set j (rj + a0 * bj)).length = 2048 := by simp [hr]
  obtain ⟨rn, hrn⟩ : ∃ v, getE (r.set j (rj + a0 * bj)) (j+1) = Except.ok v :=
    ⟨_, getE_eq_ok (by omega)⟩
  obtain ⟨rj1, hrj1⟩ : ∃ v, getE (r.set j (rj + a0 * bj)) j = Except.ok v :=
    ⟨_, getE_eq_ok (by omega)⟩
  have hq : pydiv rj1 a.base = .ok (Int.fdiv rj1 a.base) := pydiv_eq_ok hB
  have hs2 : setE (r.set j (rj + a0 * bj)) (j+1) (rn + Int.fdiv rj1 a.base) =
      .ok ((r.set j (rj + a0 * bj)).set (j+1) (rn + Int.fdiv rj1 a.base)) :=
    setE_eq_ok _ (by omega)
  have hl2 : ((r.set j (rj + a0 * bj)).set (j+1) (rn + Int.fdiv rj1 a.base)).length = 2048 := by
    simp [hr]
  obtain ⟨rj2, hrj2⟩ :
      ∃ v, getE ((r.set j (rj + a0 * bj)).set (j+1) (rn + Int.fdiv rj1 a.base)) j =
        Except.ok v := ⟨_, getE_eq_ok (by omega)⟩
  have hm : pymod rj2 a.base = .ok (Int.fmod rj2 a.base) := pymod_eq_ok hB
  have hs3 : setE ((r.set j (rj + a0 * bj)).set (j+1) (rn + Int.fdiv rj1 a.base)) j
      (Int.fmod rj2 a.base) =
      .ok (((r.set j (rj + a0 * bj)).set (j+1) (rn + Int.fdiv rj1 a.base)).set j
        (Int.fmod rj2 a.base)) := setE_eq_ok _ (by omega)
  refine ⟨((r.set j (rj + a0 * bj)).set (j+1) (rn + rj1.fdiv a.base)).set j
      (rj2.fmod a.base), ?_, ?_⟩
  · unfold mulStep
    simp only [Nat.zero_add]
    rw [ha0, ebind_ok, hbj', ebind_ok, hrj', ebind_ok, hs1, ebind_ok, hrn, ebind_ok,
      hrj1, ebind_ok, hq, ebind_ok, hs2, ebind_ok, hrj2, ebind_ok, hm, ebind_ok, hs3]
  · simp [hr]

theorem mulStep0_top_err (a b : BigInt) (ha : a.value ≠ []) (hb : 2048 ≤ b.value.length)
    (r : List Int) (hr : r.length = 2048) :
    mulStep a b 0 2047 r = .error .indexError := by
  have h0 : 0 < a.value.length := List.length_pos.mpr ha
  have hbj : (2047 : Nat) < b.value.length := by omega
  have hrj : (2047 : Nat) < r.length := by omega
  obtain ⟨a0, ha0⟩ : ∃ v, getE a.value 0 = Except.ok v := ⟨_, getE_eq_ok h0⟩
  obtain ⟨bj, hbj'⟩ : ∃ v, getE b.value 2047 = Except.ok v := ⟨_, getE_eq_ok hbj⟩
  obtain ⟨rj, hrj'⟩ : ∃ v, getE r 2047 = Except.ok v := ⟨_, getE_eq_ok hrj⟩
  have hs1 : setE r 2047 (rj + a0 * bj) = .ok (r.set 2047 (rj + a0 * bj)) := setE_eq_ok _ hrj
  have herr : getE (r.set 2047 (rj + a0 * bj)) (2047+1) = .error .indexError :=
    getE_eq_err (by simp [hr])
  unfold mulStep
  simp only [Nat.zero_add]
  rw [ha0, ebind_ok, hbj', ebind_ok, hrj', ebind_ok, hs1, ebind_ok, herr, ebind_err]

/-- For operands of the default size 2048 (as the program always builds),
`__mul__` raises `IndexError`: at `i = 0, j = 2047` it reads
`result.value[2048]`, one past the end of the 2048-slot result array. -/
theorem mul_index_error (a b : BigInt) (hs : a.size = 2048) (ha : a.value ≠ [])
    (hb : 2048 ≤ b.value.length) (hB : a.base ≠ 0) :
    mul a b = .error .indexError := by
  have hinner : loopUp (mulStep a b 0) 0 2048 (List.replicate 2048 (0:Int)) =
      .error .indexError := by
    have h2048 : (2048 : Nat) = 2047 + 1 := rfl
    rw [h2048, loopUp_succ_end]
    obtain ⟨r, hrok, hrlen⟩ :=
      loopUp_ok_of_steps (fun l => l.length = 2048) (mulStep a b 0) 2047 0
        (List.replicate 2048 (0:Int))
        (fun k acc' _ hk2 hP => mulStep0_ok a b ha hB hb k (by omega) acc' hP)
        (by simp)
    rw [hrok, ebind_ok, Nat.zero_add]
    exact mulStep0_top_err a b ha hb r hrlen
  unfold mul
  rw [hs]
  have l1 : loopUp (fun i r => loopUp (mulStep a b i) 0 (2048 - i) r) 0 (2047+1)
      (List.replicate 2048 (0:Int)) =
      (loopUp (mulStep a b 0) 0 (2048 - 0) (List.replicate 2048 (0:Int))).bind
        (loopUp (fun i r => loopUp (mulStep a b i) 0 (2048 - i) r) 1 2047) := rfl
  rw [show (2048:Nat) = 2047+1 from rfl] at hinner ⊢
  rw [l1]
  rw [show (2047+1) - 0 = 2047+1 from rfl, hinner, ebind_err, emap_err]

/-! Section: `__mod__` fails with the zero-modulus error when the top digit of the
modulus is zero -/

theorem pymod_zero_err (x : Int) : pymod x 0 = .error .zeroDivisionError := by
  simp [pymod]

theorem all_zero_of_replicate {l : List Int} (h : l = List.replicate 2048 0) :
    l.all (fun d => d == 0) = true := by
  subst h
  rw [List.all_eq_true]
  intro x hx
  have hx0 : x = 0 := List.eq_of_mem_replicate hx
  subst hx0
  rfl

/-- If `self` has a nonzero digit and the modulus has 2048 digits with the
most significant one zero (but is not the all-zero list), `__mod__` raises
the zero-modulus `ValueError`: the very first loop step computes
`result.value[2047] %= 0`. -/
theorem mod_top_zero_err (a m : BigInt) (hs : a.size = 2048) (hla : a.value.length = 2048)
    (hnz : a.value.all (fun d => d == 0) = false)
    (hm : m.value ≠ List.replicate 2048 0)
    (hm0 : m.value.get? 2047 = some 0) :
    mod a m = .error .valueError := by
  have hane : a.value ≠ List.replicate 2048 0 := by
    intro hcon
    rw [all_zero_of_replicate hcon] at hnz
    cases hnz
  have hb1 : beq m defaultBig = false := by
    unfold beq
    exact beq_eq_false_iff_ne.mpr hm
  have hb2 : beq m (BigInt.ofInt 0 10 2048) = false := by
    unfold beq
    show (m.value == fromIntList 10 0 2048) = false
    rw [fromIntList_zero 2048]
    exact beq_eq_false_iff_ne.mpr hm
  have hc1 : (beq m defaultBig || beq m (BigInt.ofInt 0 10 2048)) = false := by
    rw [hb1, hb2]; rfl
  have hc2 : beq a defaultBig = false := by
    unfold beq
    exact beq_eq_false_iff_ne.mpr hane
  have hstep : modStep a.base m 2047 a.value = .error .zeroDivisionError := by
    obtain ⟨rj, hrj⟩ : ∃ v, getE a.value 2047 = Except.ok v :=
      ⟨_, getE_eq_ok (by omega)⟩
    have hmj : getE m.value 2047 = .ok 0 := getE_ok_iff.mpr hm0
    unfold modStep
    rw [hrj, ebind_ok, hmj, ebind_ok, pymod_zero_err, ebind_err]
  have hloop : loopDown (modStep a.base m) 2048 a.value = .error .zeroDivisionError := by
    have l1 : loopDown (modStep a.base m) (2047+1) a.value =
        (modStep a.base m 2047 a.value).bind (loopDown (modStep a.base m) 2047) := rfl
    rw [show (2048:Nat) = 2047+1 from rfl, l1, hstep, ebind_err]
  unfold mod
  rw [if_neg (by simp [hc1]), if_neg (by simp [hc2]), if_neg (by simp [hnz]), hs, hloop]

/-! Section: Inverting a successful `__mod__`, and the Euclidean measure -/

theorem mod_ok_cases {a m r : BigInt} (h : mod a m = .ok r) :
    r = defaultBig ∨
    ∃ rl, loopDown (modStep a.base m) a.size a.value = .ok rl ∧ r = ⟨10, 2048, rl⟩ := by
  unfold mod at h
  split at h
  · cases h
  · split at h
    · cases h; exact Or.inl rfl
    · split at h
      · cases h; exact Or.inl rfl
      · split at h
        · cases h
        · cases h
        · rename_i rl hrl
          cases h
          exact Or.inr ⟨rl, hrl, rfl⟩

theorem natAbs_fmod_lt {x m : Int} (hm : 0 < m) : (Int.fmod x m).natAbs < m.natAbs := by
  have h1 : 0 ≤ Int.fmod x m := Int.fmod_nonneg' x hm
  have h2 : Int.fmod x m < m := Int.fmod_lt_of_pos x hm
  omega

theorem digitsSum_cons (x : Int) (l : List Int) :
    digitsSum (x :: l) = x.natAbs + digitsSum l := rfl

theorem digitsSum_le_of_pointwise : ∀ (xs ys : List Int), xs.length = ys.length →
    (∀ j x y, xs.get? j = some x → ys.get? j = some y → x.natAbs < y.natAbs) →
    digitsSum xs ≤ digitsSum ys := by
  intro xs
  induction xs with
  | nil =>
    intro ys hlen _
    cases ys with
    | nil => exact le_rfl
    | cons y ys => exact absurd hlen (by simp)
  | cons x xs ih =>
    intro ys hlen hpt
    cases ys with
    | nil => exact absurd hlen (by simp)
    | cons y ys =>
      have hxy : x.natAbs < y.natAbs := hpt 0 x y rfl rfl
      have htail : digitsSum xs ≤ digitsSum ys :=
        ih ys (by simpa using hlen) (fun j a b ha hb => hpt (j+1) a b ha hb)
      rw [digitsSum_cons, digitsSum_cons]
      omega

theorem digitsSum_lt_of_pointwise (xs ys : List Int) (hlen : xs.length = ys.length)
    (hne : xs ≠ [])
    (hpt : ∀ j x y, xs.get? j = some x → ys.get? j = some y → x.natAbs < y.natAbs) :
    digitsSum xs < digitsSum ys := by
  cases xs with
  | nil => cases hne rfl
  | cons x xs =>
    cases ys with
    | nil => exact absurd hlen (by simp)
    | cons y ys =>
      have hxy : x.natAbs < y.natAbs := hpt 0 x y rfl rfl
      have htail : digitsSum xs ≤ digitsSum ys :=
        digitsSum_le_of_pointwise xs ys (by simpa using hlen)
          (fun j a b ha hb => hpt (j+1) a b ha hb)
      rw [digitsSum_cons, digitsSum_cons]
      omega

theorem lt_of_get?_some {l : List Int} {j : Nat} {x : Int} (h : l.get? j = some x) :
    j < l.length := by
  by_contra hcon
  rw [List.get?_eq_none.mpr (by omega)] at h
  cases h

/-- Facts about the digit list produced by a *successful* run of the
reduction loop: it keeps its length, its digits are nonnegative remainders
by the corresponding digits of `m`, and its measure strictly drops below
that of `m`'s digit list. -/
theorem mod_loop_shrinks {a m : BigInt} {rl : List Int}
    (hs : a.size = 2048) (hla : a.value.length = 2048) (hlm : m.value.length = 2048)
    (hmpos : ∀ d ∈ m.value, 0 ≤ d)
    (h : loopDown (modStep a.base m) a.size a.value = .ok rl) :
    rl.length = 2048 ∧ (∀ d ∈ rl, 0 ≤ d) ∧ digitsSum rl < digitsSum m.value := by
  rw [hs] at h
  obtain ⟨hlen, -, hchar⟩ := loopDown_char 2048 a.value rl h
  have hrlen : rl.length = 2048 := hlen.trans hla
  have hpos : ∀ j x mj, rl.get? j = some x → m.value.get? j = some mj →
      0 ≤ x ∧ x.natAbs < mj.natAbs := by
    intro j x mj hx hmj
    have hjlt : j < 2048 := by have := lt_of_get?_some hx; omega
    obtain ⟨y, mj', hmv, hmj0, hry⟩ := hchar j hjlt
    rw [hmj] at hmv
    cases hmv
    rw [hx] at hry
    cases hry
    have hmjpos : 0 < mj := by
      have := hmpos mj (List.get?_mem hmj)
      omega
    exact ⟨Int.fmod_nonneg' y hmjpos, natAbs_fmod_lt hmjpos⟩
  refine ⟨hrlen, ?_, ?_⟩
  · intro d hd
    obtain ⟨j, hj⟩ := List.mem_iff_get?.mp hd
    have hjlt : j < 2048 := by have := lt_of_get?_some hj; omega
    obtain ⟨mj, hmj⟩ : ∃ v, m.value.get? j = some v :=
      ⟨_, List.get?_eq_get (by omega)⟩
    exact (hpos j d mj hj hmj).1
  · refine digitsSum_lt_of_pointwise rl m.value (by omega) ?_ ?_
    · intro hcon
      rw [hcon] at hrlen
      cases hrlen
    · intro j x y hx hy
      exact (hpos j x y hx hy).2

/-! Section: Termination of the Euclidean `gcd` loop -/

theorem gcdLoop_zero_of_zero (a b : BigInt) (hb : b.value = List.replicate 2048 0) :
    ∀ fuel, gcdLoop fuel a b = some (.ok a) := by
  have hbeq : beq b defaultBig = true := by
    unfold beq
    show (b.value == List.replicate 2048 0) = true
    rw [hb]
    exact beq_self_eq_true _
  intro fuel
  cases fuel with
  | zero =>
    have e : gcdLoop 0 a b = if beq b defaultBig then some (.ok a) else none := rfl
    rw [e, hbeq]
    rfl
  | succ n =>
    have e : gcdLoop (n+1) a b = if beq b defaultBig then some (.ok a)
        else match mod a b with
          | .error e => some (.error e)
          | .ok r => gcdLoop n b r := rfl
    rw [e, hbeq]
    rfl

theorem gcdLoop_succ_of_not_zero (n : Nat) (a b : BigInt) (h : beq b defaultBig = false) :
    gcdLoop (n+1) a b =
      match mod a b with
      | .error e => some (.error e)
      | .ok r => gcdLoop n b r := by
  have e : gcdLoop (n+1) a b = if beq b defaultBig then some (.ok a)
      else match mod a b with
        | .error e => some (.error e)
        | .ok r => gcdLoop n b r := rfl
  rw [e, h, if_neg Bool.false_ne_true]

theorem gcd_terminates_aux : ∀ (N : Nat) (a b : BigInt),
    a.size = 2048 → a.value.length = 2048 → b.size = 2048 → b.value.length = 2048 →
    (∀ d ∈ b.value, 0 ≤ d) → digitsSum b.value < N →
    ∃ n res, gcdLoop n a b = some res := by
  intro N
  induction N with
  | zero => intro a b _ _ _ _ _ h; omega
  | succ N ih =>
    intro a b hsa hla hsb hlb hbpos hN
    by_cases hbz : b.value = List.replicate 2048 0
    · exact ⟨0, .ok a, gcdLoop_zero_of_zero a b hbz 0⟩
    · have hbeqf : beq b defaultBig = false := by
        unfold beq
        exact beq_eq_false_iff_ne.mpr hbz
      cases hmod : mod a b with
      | error e =>
        refine ⟨1, .error e, ?_⟩
        rw [gcdLoop_succ_of_not_zero 0 a b hbeqf, hmod]
      | ok r =>
        rcases mod_ok_cases hmod with hr | ⟨rl, hloop, hr⟩
        · subst hr
          refine ⟨2, .ok b, ?_⟩
          rw [gcdLoop_succ_of_not_zero 1 a b hbeqf, hmod]
          exact gcdLoop_zero_of_zero b defaultBig rfl 1
        · subst hr
          obtain ⟨hrlen, hrpos, hrsum⟩ := mod_loop_shrinks hsa hla hlb hbpos hloop
          obtain ⟨n, res, hrec⟩ :=
            ih b ⟨10, 2048, rl⟩ hsb hlb rfl hrlen hrpos (show digitsSum rl < N by omega)
          refine ⟨n+1, res, ?_⟩
          rw [gcdLoop_succ_of_not_zero n a b hbeqf, hmod]
          exact hrec

/-! Section: The `__add__` and `__sub__` loops compute `addDigits` / `subDigits` -/

theorem set_append_len (p q : List Int) (x : Int) :
    (p ++ q).set p.length x = p ++ q.set 0 x := by
  induction p with
  | nil => rfl
  | cons h t ih =>
    show (h :: (t ++ q)).set (t.length + 1) x = h :: (t ++ q.set 0 x)
    rw [List.set_cons_succ, ih]

theorem set_append_replicate (p : List Int) (k : Nat) (x : Int) :
    (p ++ List.replicate (k+1) 0).set p.length x = p ++ (x :: List.replicate k 0) := by
  rw [set_append_len, List.replicate_succ, List.set_cons_zero]

theorem addLoop_spec (a b : BigInt) (hB : a.base ≠ 0) :
    ∀ (k i : Nat) (p : List Int) (c : Int),
      p.length = i → i + k = a.value.length → i + k = b.value.length →
      ∃ c', loopUp (addStep a b) i k (p ++ List.replicate k 0, c) =
        .ok (p ++ addDigits a.base (a.value.drop i) (b.value.drop i) c, c') := by
  intro k
  induction k with
  | zero =>
    intro i p c hp ha hb
    refine ⟨c, ?_⟩
    have hda : a.value.drop i = [] := List.drop_eq_nil_of_le (by omega)
    have hdb : b.value.drop i = [] := List.drop_eq_nil_of_le (by omega)
    rw [hda, hdb]
    rfl
  | succ k ih =>
    intro i p c hp ha hb
    have hia : i < a.value.length := by omega
    have hib : i < b.value.length := by omega
    have e1 : getE a.value i = .ok (a.value.get ⟨i, hia⟩) := getE_eq_ok hia
    have e2 : getE b.value i = .ok (b.value.get ⟨i, hib⟩) := getE_eq_ok hib
    have hda : a.value.drop i = a.value.get ⟨i, hia⟩ :: a.value.drop (i+1) := by
      rw [List.drop_eq_getElem_cons hia, List.get_eq_getElem]
    have hdb : b.value.drop i = b.value.get ⟨i, hib⟩ :: b.value.drop (i+1) := by
      rw [List.drop_eq_getElem_cons hib, List.get_eq_getElem]
    set ai := a.value.get ⟨i, hia⟩ with hai
    set bi := b.value.get ⟨i, hib⟩ with hbi
    set d := Int.fmod (ai + bi + c) a.base with hd
    set q := Int.fdiv (ai + bi + c) a.base with hq
    have hset : setE (p ++ List.replicate (k+1) 0) i d =
        .ok (p ++ (d :: List.replicate k 0)) := by
      have hlen : i < (p ++ List.replicate (k+1) (0:Int)).length := by
        simp [hp]
      rw [setE_eq_ok _ hlen, ← hp, set_append_replicate]
    have hstep : addStep a b i (p ++ List.replicate (k+1) 0, c) =
        .ok (p ++ (d :: List.replicate k 0), q) := by
      simp only [addStep]
      rw [e1, ebind_ok, e2, ebind_ok]
      rw [pymod_eq_ok hB, ebind_ok, hset, ebind_ok, pydiv_eq_ok hB, ebind_ok]
    obtain ⟨c', hrec⟩ := ih (i+1) (p ++ [d]) q (by simp [hp]) (by omega) (by omega)
    refine ⟨c', ?_⟩
    have hloop : loopUp (addStep a b) i (k+1) (p ++ List.replicate (k+1) 0, c) =
        (addStep a b i (p ++ List.replicate (k+1) 0, c)).bind
          (loopUp (addStep a b) (i+1) k) := rfl
    rw [hloop, hstep, ebind_ok]
    have hacc : p ++ (d :: List.replicate k (0:Int)) = (p ++ [d]) ++ List.replicate k 0 := by
      rw [List.append_assoc, List.singleton_append]
    rw [hacc, hrec, hda, hdb]
    have haddD : addDigits a.base (ai :: a.value.drop (i+1)) (bi :: b.value.drop (i+1)) c
        = d :: addDigits a.base (a.value.drop (i+1)) (b.value.drop (i+1)) q := rfl
    rw [haddD, List.append_assoc, List.singleton_append]

/-- For full-size operands, `__add__` succeeds and computes `addDigits`. -/
theorem add_eq (a b : BigInt) (hB : a.base ≠ 0) (hs : a.size = 2048)
    (hla : a.value.length = 2048) (hlb : b.value.length = 2048) :
    add a b = .ok ⟨10, 2048, addDigits a.base a.value b.value 0⟩ := by
  obtain ⟨c', h⟩ := addLoop_spec a b hB 2048 0 [] 0 rfl (by omega) (by omega)
  simp only [List.nil_append, List.drop_zero] at h
  unfold add
  rw [hs, h, emap_ok]

theorem subLoop_spec (a b : BigInt) :
    ∀ (k i : Nat) (p : List Int) (c : Int),
      p.length = i → i + k = a.value.length → i + k = b.value.length →
      ∃ c', loopUp (subStep a b) i k (p ++ List.replicate k 0, c) =
        .ok (p ++ subDigits a.base (a.value.drop i) (b.value.drop i) c, c') := by
  intro k
  induction k with
  | zero =>
    intro i p c hp ha hb
    refine ⟨c, ?_⟩
    have hda : a.value.drop i = [] := List.drop_eq_nil_of_le (by omega)
    have hdb : b.value.drop i = [] := List.drop_eq_nil_of_le (by omega)
    rw [hda, hdb]
    rfl
  | succ k ih =>
    intro i p c hp ha hb
    have hia : i < a.value.length := by omega
    have hib : i < b.value.length := by omega
    have e1 : getE a.value i = .ok (a.value.get ⟨i, hia⟩) := getE_eq_ok hia
    have e2 : getE b.value i = .ok (b.value.get ⟨i, hib⟩) := getE_eq_ok hib
    have hda : a.value.drop i = a.value.get ⟨i, hia⟩ :: a.value.drop (i+1) := by
      rw [List.drop_eq_getElem_cons hia, List.get_eq_getElem]
    have hdb : b.value.drop i = b.value.get ⟨i, hib⟩ :: b.value.drop (i+1) := by
      rw [List.drop_eq_getElem_cons hib, List.get_eq_getElem]
    set ai := a.value.get ⟨i, hia⟩ with hai
    set bi := b.value.get ⟨i, hib⟩ with hbi
    have hlen : i < (p ++ List.replicate (k+1) (0:Int)).length := by
      simp [hp]
    have hloop : loopUp (subStep a b) i (k+1) (p ++ List.replicate (k+1) 0, c) =
        (subStep a b i (p ++ List.replicate (k+1) 0, c)).bind
          (loopUp (subStep a b) (i+1) k) := rfl
    by_cases hneg : ai - bi - c < 0
    · set d := ai - bi - c + a.base with hd
      have hset : setE (p ++ List.replicate (k+1) 0) i d =
          .ok (p ++ (d :: List.replicate k 0)) := by
        rw [setE_eq_ok _ hlen, ← hp, set_append_replicate]
      have hstep : subStep a b i (p ++ List.replicate (k+1) 0, c) =
          .ok (p ++ (d :: List.replicate k 0), 1) := by
        simp only [subStep]
        rw [e1, ebind_ok, e2, ebind_ok]
        rw [if_pos hneg, hset, ebind_ok]
      obtain ⟨c', hrec⟩ := ih (i+1) (p ++ [d]) 1 (by simp [hp]) (by omega) (by omega)
      refine ⟨c', ?_⟩
      rw [hloop, hstep, ebind_ok]
      have hacc : p ++ (d :: List.replicate k (0:Int)) = (p ++ [d]) ++ List.replicate k 0 := by
        rw [List.append_assoc, List.singleton_append]
      rw [hacc, hrec, hda, hdb]
      have hsubD : subDigits a.base (ai :: a.value.drop (i+1)) (bi :: b.value.drop (i+1)) c
          = d :: subDigits a.base (a.value.drop (i+1)) (b.value.drop (i+1)) 1 := by
        show (if ai - bi - c < 0 then
            (ai - bi - c + a.base) :: subDigits a.base (a.value.drop (i+1))
              (b.value.drop (i+1)) 1
          else (ai - bi - c) :: subDigits a.base (a.value.drop (i+1))
              (b.value.drop (i+1)) 0) = _
        rw [if_pos hneg]
      rw [hsubD, List.append_assoc, List.singleton_append]
    · set d := ai - bi - c with hd
      have hset : setE (p ++ List.replicate (k+1) 0) i d =
          .ok (p ++ (d :: List.replicate k 0)) := by
        rw [setE_eq_ok _ hlen, ← hp, set_append_replicate]
      have hstep : subStep a b i (p ++ List.replicate (k+1) 0, c) =
          .ok (p ++ (d :: List.replicate k 0), 0) := by
        simp only [subStep]
        rw [e1, ebind_ok, e2, ebind_ok]
        rw [if_neg hneg, hset, ebind_ok]
      obtain ⟨c', hrec⟩ := ih (i+1) (p ++ [d]) 0 (by simp [hp]) (by omega) (by omega)
      refine ⟨c', ?_⟩
      rw [hloop, hstep, ebind_ok]
      have hacc : p ++ (d :: List.replicate k (0:Int)) = (p ++ [d]) ++ List.replicate k 0 := by
        rw [List.append_assoc, List.singleton_append]
      rw [hacc, hrec, hda, hdb]
      have hsubD : subDigits a.base (ai :: a.value.drop (i+1)) (bi :: b.value.drop (i+1)) c
          = d :: subDigits a.base (a.value.drop (i+1)) (b.value.drop (i+1)) 0 := by
        show (if ai - bi - c < 0 then
            (ai - bi - c + a.base) :: subDigits a.base (a.value.drop (i+1))
              (b.value.drop (i+1)) 1
          else (ai - bi - c) :: subDigits a.base (a.value.drop (i+1))
              (b.value.drop (i+1)) 0) = _
        rw [if_neg hneg]
      rw [hsubD, List.append_assoc, List.singleton_append]

/-- For full-size operands, `__sub__` succeeds and computes `subDigits`. -/
theorem sub_eq (a b : BigInt) (hs : a.size = 2048)
    (hla : a.value.length = 2048) (hlb : b.value.length = 2048) :
    sub a b = .ok ⟨10, 2048, subDigits a.base a.value b.value 0⟩ := by
  obtain ⟨c', h⟩ := subLoop_spec a b 2048 0 [] 0 rfl (by omega) (by omega)
  simp only [List.nil_append, List.drop_zero] at h
  unfold sub
  rw [hs, h, emap_ok]

/-! Section: Arithmetic facts about `addDigits` / `subDigits` -/

theorem addDigits_length : ∀ (as bs : List Int) (c base : Int), as.length = bs.length →
    (addDigits base as bs c).length = as.length := by
  intro as
  induction as with
  | nil => intro bs c base _; rfl
  | cons a as ih =>
    intro bs c base hlen
    cases bs with
    | nil => exact absurd hlen (by simp)
    | cons b bs =>
      show (Int.fmod (a + b + c) base :: addDigits base as bs _).length = as.length + 1
      rw [List.length_cons, ih bs _ base (by simpa using hlen)]

theorem subDigits_length : ∀ (as bs : List Int) (c base : Int), as.length = bs.length →
    (subDigits base as bs c).length = as.length := by
  intro as
  induction as with
  | nil => intro bs c base _; rfl
  | cons a as ih =>
    intro bs c base hlen
    cases bs with
    | nil => exact absurd hlen (by simp)
    | cons b bs =>
      show (if a - b - c < 0 then (a - b - c + base) :: subDigits base as bs 1
        else (a - b - c) :: subDigits base as bs 0).length = as.length + 1
      split
      · rw [List.length_cons, ih bs 1 base (by simpa using hlen)]
      · rw [List.length_cons, ih bs 0 base (by simpa using hlen)]

theorem addDigits_bounds : ∀ (as bs : List Int) (c base : Int), 0 < base →
    ∀ d ∈ addDigits base as bs c, 0 ≤ d ∧ d < base := by
  intro as
  induction as with
  | nil => intro bs c base _ d hd; cases hd
  | cons a as ih =>
    intro bs c base hbase d hd
    cases bs with
    | nil => cases hd
    | cons b bs =>
      have : d = Int.fmod (a + b + c) base ∨
          d ∈ addDigits base as bs (Int.fdiv (a + b + c) base) := by
        simpa [addDigits] using hd
      rcases this with rfl | hmem
      · exact ⟨Int.fmod_nonneg' _ hbase, Int.fmod_lt_of_pos _ hbase⟩
      · exact ih bs _ base hbase d hmem

theorem subDigits_bounds : ∀ (as bs : List Int) (c base : Int),
    (∀ x ∈ as, 0 ≤ x ∧ x < base) → (∀ x ∈ bs, 0 ≤ x ∧ x < base) →
    (c = 0 ∨ c = 1) →
    ∀ d ∈ subDigits base as bs c, 0 ≤ d ∧ d < base := by
  intro as
  induction as with
  | nil => intro bs c base _ _ _ d hd; cases hd
  | cons a as ih =>
    intro bs c base has hbs hc d hd
    cases bs with
    | nil => cases hd
    | cons b bs =>
      have ha := has a (List.mem_cons_self _ _)
      have hb := hbs b (List.mem_cons_self _ _)
      have has' : ∀ x ∈ as, 0 ≤ x ∧ x < base := fun x hx => has x (List.mem_cons_of_mem _ hx)
      have hbs' : ∀ x ∈ bs, 0 ≤ x ∧ x < base := fun x hx => hbs x (List.mem_cons_of_mem _ hx)
      by_cases hneg : a - b - c < 0
      · have : d = a - b - c + base ∨ d ∈ subDigits base as bs 1 := by
          simpa [subDigits, hneg] using hd
        rcases this with rfl | hmem
        · constructor <;> omega
        · exact ih bs 1 base has' hbs' (Or.inr rfl) d hmem
      · have : d = a - b - c ∨ d ∈ subDigits base as bs 0 := by
          simpa [subDigits, hneg] using hd
        rcases this with rfl | hmem
        · constructor <;> omega
        · exact ih bs 0 base has' hbs' (Or.inl rfl) d hmem

theorem addDigits_val : ∀ (as bs : List Int) (c base : Int), as.length = bs.length →
    ∃ cout : Int,
      digitsVal base (addDigits base as bs c) + base ^ as.length * cout =
        digitsVal base as + digitsVal base bs + c := by
  intro as
  induction as with
  | nil =>
    intro bs c base hlen
    cases bs with
    | nil => exact ⟨c, by simp [addDigits, digitsVal]⟩
    | cons b bs => exact absurd hlen (by simp)
  | cons a as ih =>
    intro bs c base hlen
    cases bs with
    | nil => exact absurd hlen (by simp)
    | cons b bs =>
      obtain ⟨cout, hIH⟩ := ih bs (Int.fdiv (a + b + c) base) base (by simpa using hlen)
      refine ⟨cout, ?_⟩
      have hfd : Int.fmod (a + b + c) base + base * Int.fdiv (a + b + c) base = a + b + c :=
        Int.fmod_add_fdiv _ _
      have hed : addDigits base (a :: as) (b :: bs) c =
          Int.fmod (a + b + c) base :: addDigits base as bs (Int.fdiv (a + b + c) base) := rfl
      rw [hed]
      show Int.fmod (a + b + c) base +
          base * digitsVal base (addDigits base as bs (Int.fdiv (a + b + c) base)) +
          base ^ (as.length + 1) * cout =
        (a + base * digitsVal base as) + (b + base * digitsVal base bs) + c
      have hpow : base ^ (as.length + 1) = base * base ^ as.length := by ring
      rw [hpow]
      linear_combination base * hIH + hfd

theorem subDigits_val : ∀ (as bs : List Int) (c base : Int), as.length = bs.length →
    ∃ bout : Int,
      digitsVal base (subDigits base as bs c) + base ^ as.length * bout =
        digitsVal base as - digitsVal base bs - c := by
  intro as
  induction as with
  | nil =>
    intro bs c base hlen
    cases bs with
    | nil => exact ⟨-c, by simp [subDigits, digitsVal]⟩
    | cons b bs => exact absurd hlen (by simp)
  | cons a as ih =>
    intro bs c base hlen
    cases bs with
    | nil => exact absurd hlen (by simp)
    | cons b bs =>
      have hlen' : as.length = bs.length := by simpa using hlen
      by_cases hneg : a - b - c < 0
      · obtain ⟨bout, hIH⟩ := ih bs 1 base hlen'
        refine ⟨bout, ?_⟩
        have hed : subDigits base (a :: as) (b :: bs) c =
            (a - b - c + base) :: subDigits base as bs 1 := by
          show (if a - b - c < 0 then (a - b - c + base) :: subDigits base as bs 1
            else (a - b - c) :: subDigits base as bs 0) = _
          rw [if_pos hneg]
        rw [hed]
        show (a - b - c + base) + base * digitsVal base (subDigits base as bs 1) +
            base ^ (as.length + 1) * bout =
          (a + base * digitsVal base as) - (b + base * digitsVal base bs) - c
        have hpow : base ^ (as.length + 1) = base * base ^ as.length := by ring
        rw [hpow]
        linear_combination base * hIH
      · obtain ⟨bout, hIH⟩ := ih bs 0 base hlen'
        refine ⟨bout, ?_⟩
        have hed : subDigits base (a :: as) (b :: bs) c =
            (a - b - c) :: subDigits base as bs 0 := by
          show (if a - b - c < 0 then (a - b - c + base) :: subDigits base as bs 1
            else (a - b - c) :: subDigits base as bs 0) = _
          rw [if_neg hneg]
        rw [hed]
        show (a - b - c) + base * digitsVal base (subDigits base as bs 0) +
            base ^ (as.length + 1) * bout =
          (a + base * digitsVal base as) - (b + base * digitsVal base bs) - c
        have hpow : base ^ (as.length + 1) = base * base ^ as.length := by ring
        rw [hpow]
        linear_combination base * hIH

theorem addDigits_zero_right : ∀ (l : List Int) (n : Nat) (base : Int),
    l.length = n → (∀ d ∈ l, 0 ≤ d ∧ d < base) →
    addDigits base l (List.replicate n 0) 0 = l := by
  intro l
  induction l with
  | nil =>
    intro n base hn _
    cases hn
    rfl
  | cons x t ih =>
    intro n base hn hb
    cases n with
    | zero => cases hn
    | succ n =>
      have hx := hb x (List.mem_cons_self _ _)
      have hbase : 0 < base := lt_of_le_of_lt hx.1 hx.2
      rw [List.replicate_succ]
      have hed : addDigits base (x :: t) (0 :: List.replicate n 0) 0 =
          Int.fmod (x + 0 + 0) base :: addDigits base t (List.replicate n 0)
            (Int.fdiv (x + 0 + 0) base) := rfl
      rw [hed]
      have hx0 : x + 0 + 0 = x := by ring
      rw [hx0]
      have e1 : Int.fmod x base = x := by
        rw [Int.fmod_eq_emod _ (le_of_lt hbase)]
        exact Int.emod_eq_of_lt hx.1 hx.2
      have e2 : Int.fdiv x base = 0 := by
        rw [Int.fdiv_eq_ediv _ (le_of_lt hbase)]
        exact Int.ediv_eq_zero_of_lt hx.1 hx.2
      rw [e1, e2, ih n base (by simpa using hn) (fun d hd => hb d (List.mem_cons_of_mem _ hd))]

theorem subDigits_zero_right : ∀ (l : List Int) (n : Nat) (base : Int),
    l.length = n → (∀ d ∈ l, 0 ≤ d ∧ d < base) →
    subDigits base l (List.replicate n 0) 0 = l := by
  intro l
  induction l with
  | nil =>
    intro n base hn _
    cases hn
    rfl
  | cons x t ih =>
    intro n base hn hb
    cases n with
    | zero => cases hn
    | succ n =>
      have hx := hb x (List.mem_cons_self _ _)
      rw [List.replicate_succ]
      have hed : subDigits base (x :: t) (0 :: List.replicate n 0) 0 =
          if x - 0 - 0 < 0 then (x - 0 - 0 + base) :: subDigits base t (List.replicate n 0) 1
          else (x - 0 - 0) :: subDigits base t (List.replicate n 0) 0 := rfl
      rw [hed, if_neg (by omega)]
      have hx0 : x - 0 - 0 = x := by ring
      rw [hx0, ih n base (by simpa using hn) (fun d hd => hb d (List.mem_cons_of_mem _ hd))]

/-! Section: Shallow evaluation helpers for the sample values -/

theorem emap_ok_iff {α β : Type} {e : Except PyErr α} {f : α → β} {b : β} :
    e.map f = .ok b ↔ ∃ a, e = .ok a ∧ b = f a := by
  cases e <;> simp [Except.map, eq_comm]

theorem fromIntList_digit_bounds (base : Int) (hb : 0 < base) :
    ∀ (n : Int) (k : Nat), ∀ d ∈ fromIntList base n k, 0 ≤ d ∧ d < base := by
  intro n k
  induction k generalizing n with
  | zero => intro d hd; cases hd
  | succ k ih =>
    intro d hd
    have : d = Int.fmod n base ∨ d ∈ fromIntList base (Int.fdiv n base) k := by
      simpa [fromIntList] using hd
    rcases this with rfl | hmem
    · exact ⟨Int.fmod_nonneg' _ hb, Int.fmod_lt_of_pos _ hb⟩
    · exact ih _ d hmem

theorem parseDigits_ok_length : ∀ (s : List Char) (base : Int) (l : List Int),
    parseDigits base s = .ok l → l.length = s.length := by
  intro s
  induction s with
  | nil =>
    intro base l h
    cases h
    rfl
  | cons c cs ih =>
    intro base l h
    have h' : (parseDigit base c).bind (fun d =>
        (parseDigits base cs).bind fun ds => .ok (d :: ds)) = .ok l := h
    rw [ebind_ok_iff] at h'
    obtain ⟨d, -, h'⟩ := h'
    rw [ebind_ok_iff] at h'
    obtain ⟨ds, hds, h'⟩ := h'
    cases h'
    simp [List.length_cons, ih base ds hds]

theorem get?_replicate_lt : ∀ (n m : Nat), m < n →
    (List.replicate n (0:Int)).get? m = some 0 := by
  intro n
  induction n with
  | zero => intro m h; omega
  | succ n ih =>
    intro m h
    cases m with
    | zero => rfl
    | succ m =>
      have e : List.replicate (n+1) (0:Int) = 0 :: List.replicate n 0 := rfl
      rw [e]
      show (List.replicate n (0:Int)).get? m = some 0
      exact ih m (by omega)

theorem sampleA_value : sampleA.value = 5 :: fromIntList 10 1234 2047 := by
  have h1 : sampleA.value = Int.fmod 12345 10 :: fromIntList 10 (Int.fdiv 12345 10) 2047 := rfl
  rw [h1, (by decide : Int.fmod 12345 10 = 5), (by decide : Int.fdiv 12345 10 = 1234)]

theorem sampleB_value : sampleB.value = 0 :: fromIntList 10 6789 2047 := by
  have h1 : sampleB.value = Int.fmod 67890 10 :: fromIntList 10 (Int.fdiv 67890 10) 2047 := rfl
  rw [h1, (by decide : Int.fmod 67890 10 = 0), (by decide : Int.fdiv 67890 10 = 6789)]

theorem sampleM_value : sampleM.value = 0 :: 0 :: 1 :: List.replicate 2045 0 := by
  have h1 : sampleM.value = Int.fmod 100 10 :: fromIntList 10 (Int.fdiv 100 10) 2047 := rfl
  rw [h1, (by decide : Int.fmod 100 10 = 0), (by decide : Int.fdiv 100 10 = 10)]
  have h2 : fromIntList 10 10 2047 =
      Int.fmod 10 10 :: fromIntList 10 (Int.fdiv 10 10) 2046 := rfl
  rw [h2, (by decide : Int.fmod 10 10 = 0), (by decide : Int.fdiv 10 10 = 1)]
  have h3 : fromIntList 10 1 2046 =
      Int.fmod 1 10 :: fromIntList 10 (Int.fdiv 1 10) 2045 := rfl
  rw [h3, (by decide : Int.fmod 1 10 = 1), (by decide : Int.fdiv 1 10 = 0), fromIntList_zero 2045]

theorem sampleM_ne_zero : sampleM.value ≠ List.replicate 2048 0 := by
  intro h
  rw [sampleM_value] at h
  have e : List.replicate 2048 (0:Int) = 0 :: 0 :: 0 :: List.replicate 2045 0 := rfl
  rw [e] at h
  injection h with h1 h2
  injection h2 with h3 h4
  injection h4 with h5 h6
  exact absurd h5 (by decide)

theorem get?_cons_succ_lit (x : Int) (l : List Int) (n : Nat) :
    (x :: l).get? (n+1) = l.get? n := rfl

theorem sampleM_top_digit : sampleM.value.get? 2047 = some 0 := by
  rw [sampleM_value]
  show (0 :: 0 :: 1 :: List.replicate 2045 (0:Int)).get? (2046+1) = some 0
  rw [get?_cons_succ_lit]
  show (0 :: 1 :: List.replicate 2045 (0:Int)).get? (2045+1) = some 0
  rw [get?_cons_succ_lit]
  show (1 :: List.replicate 2045 (0:Int)).get? (2044+1) = some 0
  rw [get?_cons_succ_lit]
  exact get?_replicate_lt 2045 2044 (by omega)

theorem sampleA_nonzero_digit : ∃ d ∈ sampleA.value, d ≠ 0 := by
  refine ⟨5, ?_, by decide⟩
  rw [sampleA_value]
  exact List.mem_cons_self _ _

theorem all_eq_false_of_nonzero {l : List Int} (h : ∃ d ∈ l, d ≠ 0) :
    l.all (fun d => d == 0) = false := by
  cases hall : l.all (fun d => d == 0) with
  | false => rfl
  | true =>
    obtain ⟨d, hd, hne⟩ := h
    have := List.all_eq_true.mp hall d hd
    simp at this
    exact absurd this hne

theorem ne_replicate_of_nonzero {l : List Int}
    (h : ∃ d ∈ l, d ≠ 0) : l ≠ List.replicate 2048 0 := by
  intro hcon
  obtain ⟨d, hd, hne⟩ := h
  rw [hcon] at hd
  exact hne (List.eq_of_mem_replicate hd)

/-- When the dividend is the zero value, `__mod__` returns zero without
running the reduction loop (for any modulus that passes the zero check). -/
theorem mod_of_zero_self (m : BigInt) (h1 : m.value ≠ List.replicate 2048 0) :
    mod defaultBig m = .ok defaultBig := by
  have hb1 : beq m defaultBig = false := by
    unfold beq; exact beq_eq_false_iff_ne.mpr h1
  have hb2 : beq m (BigInt.ofInt 0 10 2048) = false := by
    unfold beq
    show (m.value == fromIntList 10 0 2048) = false
    rw [fromIntList_zero]
    exact beq_eq_false_iff_ne.mpr h1
  have hz : beq defaultBig defaultBig = true := by
    unfold beq; exact beq_self_eq_true _
  unfold mod
  rw [hb1, hb2, hz, if_neg (by simp), if_pos rfl]

theorem ofInt_two_value : (BigInt.ofInt 2 10 2048).value = 2 :: List.replicate 2047 0 := by
  have h1 : (BigInt.ofInt 2 10 2048).value =
      Int.fmod 2 10 :: fromIntList 10 (Int.fdiv 2 10) 2047 := rfl
  rw [h1, (by decide : Int.fmod 2 10 = 2), (by decide : Int.fdiv 2 10 = 0), fromIntList_zero 2047]

theorem ofInt_two_ne_zero : (BigInt.ofInt 2 10 2048).value ≠ List.replicate 2048 0 := by
  intro h
  rw [ofInt_two_value] at h
  have e : List.replicate 2048 (0:Int) = 0 :: List.replicate 2047 0 := rfl
  rw [e] at h
  injection h with h1 h2
  exact absurd h1 (by decide)

theorem ofInt_one_value : (BigInt.ofInt 1 10 2048).value = 1 :: List.replicate 2047 0 := by
  have h1 : (BigInt.ofInt 1 10 2048).value =
      Int.fmod 1 10 :: fromIntList 10 (Int.fdiv 1 10) 2047 := rfl
  rw [h1, (by decide : Int.fmod 1 10 = 1), (by decide : Int.fdiv 1 10 = 0), fromIntList_zero 2047]

theorem ofInt_two_top_digit : (BigInt.ofInt 2 10 2048).value.get? 2047 = some 0 := by
  rw [ofInt_two_value]
  show (2 :: List.replicate 2047 (0:Int)).get? (2046+1) = some 0
  rw [get?_cons_succ_lit]
  exact get?_replicate_lt 2047 2046 (by omega)

theorem mod_ok_length {a m r : BigInt} (hs : a.size = 2048) (hla : a.value.length = 2048)
    (h : mod a m = .ok r) : r.value.length = r.size := by
  rcases mod_ok_cases h with rfl | ⟨rl, hloop, rfl⟩
  · show (List.replicate 2048 (0:Int)).length = 2048
    exact List.length_replicate 2048 0
  · rw [hs] at hloop
    obtain ⟨hlen, -, -⟩ := loopDown_char 2048 a.value rl hloop
    show rl.length = 2048
    rw [hlen, hla]

/-! Section: Facts about the demo sample values -/

theorem sampleA_length : sampleA.value.length = 2048 := fromIntList_length 10 12345 2048

theorem sampleB_length : sampleB.value.length = 2048 := fromIntList_length 10 67890 2048

theorem sampleM_length : sampleM.value.length = 2048 := fromIntList_length 10 100 2048

theorem sampleA_bounds : ∀ d ∈ sampleA.value, 0 ≤ d ∧ d < sampleA.base :=
  fromIntList_digit_bounds 10 (by decide) 12345 2048

theorem sampleB_bounds : ∀ d ∈ sampleB.value, 0 ≤ d ∧ d < sampleB.base :=
  fromIntList_digit_bounds 10 (by decide) 67890 2048

/-! Section: Error behaviour of the sample modular operations -/

theorem add_sample_eq : add sampleA sampleB =
    .ok ⟨10, 2048, addDigits sampleA.base sampleA.value sampleB.value 0⟩ :=
  add_eq sampleA sampleB (by decide) rfl sampleA_length sampleB_length

theorem sub_sample_eq : sub sampleA sampleB =
    .ok ⟨10, 2048, subDigits sampleA.base sampleA.value sampleB.value 0⟩ :=
  sub_eq sampleA sampleB rfl sampleA_length sampleB_length

theorem addDigits_sample_head : addDigits sampleA.base sampleA.value sampleB.value 0 =
    5 :: addDigits sampleA.base (fromIntList 10 1234 2047) (fromIntList 10 6789 2047)
      (Int.fdiv ((5:Int) + 0 + 0) sampleA.base) := by
  rw [sampleA_value, sampleB_value]
  have e : addDigits sampleA.base (5 :: fromIntList 10 1234 2047)
      (0 :: fromIntList 10 6789 2047) 0 =
      Int.fmod ((5:Int) + 0 + 0) sampleA.base :: addDigits sampleA.base
        (fromIntList 10 1234 2047) (fromIntList 10 6789 2047)
        (Int.fdiv ((5:Int) + 0 + 0) sampleA.base) := rfl
  rw [e, (by decide : Int.fmod ((5:Int) + 0 + 0) sampleA.base = 5)]

theorem subDigits_sample_head : subDigits sampleA.base sampleA.value sampleB.value 0 =
    5 :: subDigits sampleA.base (fromIntList 10 1234 2047) (fromIntList 10 6789 2047) 0 := by
  rw [sampleA_value, sampleB_value]
  have e : subDigits sampleA.base (5 :: fromIntList 10 1234 2047)
      (0 :: fromIntList 10 6789 2047) 0 =
      if (5:Int) - 0 - 0 < 0 then
        ((5:Int) - 0 - 0 + sampleA.base) :: subDigits sampleA.base
          (fromIntList 10 1234 2047) (fromIntList 10 6789 2047) 1
      else ((5:Int) - 0 - 0) :: subDigits sampleA.base
          (fromIntList 10 1234 2047) (fromIntList 10 6789 2047) 0 := rfl
  rw [e, if_neg (by decide), (by decide : (5:Int) - 0 - 0 = 5)]

theorem modAdd_sample_err : modAdd sampleA sampleB sampleM = .error .valueError := by
  have hlen : (addDigits sampleA.base sampleA.value sampleB.value 0).length = 2048 := by
    rw [addDigits_length sampleA.value sampleB.value 0 sampleA.base
      (by rw [sampleA_length, sampleB_length]), sampleA_length]
  have hnz : (addDigits sampleA.base sampleA.value sampleB.value 0).all
      (fun d => d == 0) = false := by
    apply all_eq_false_of_nonzero
    refine ⟨5, ?_, by decide⟩
    rw [addDigits_sample_head]
    exact List.mem_cons_self _ _
  have herr : mod ⟨10, 2048, addDigits sampleA.base sampleA.value sampleB.value 0⟩ sampleM =
      .error .valueError :=
    mod_top_zero_err _ sampleM rfl hlen hnz sampleM_ne_zero sampleM_top_digit
  unfold modAdd
  rw [add_sample_eq, ebind_ok]
  exact herr

theorem modSub_sample_err : modSub sampleA sampleB sampleM = .error .valueError := by
  have hlen : (subDigits sampleA.base sampleA.value sampleB.value 0).length = 2048 := by
    rw [subDigits_length sampleA.value sampleB.value 0 sampleA.base
      (by rw [sampleA_length, sampleB_length]), sampleA_length]
  have hnz : (subDigits sampleA.base sampleA.value sampleB.value 0).all
      (fun d => d == 0) = false := by
    apply all_eq_false_of_nonzero
    refine ⟨5, ?_, by decide⟩
    rw [subDigits_sample_head]
    exact List.mem_cons_self _ _
  have herr : mod ⟨10, 2048, subDigits sampleA.base sampleA.value sampleB.value 0⟩ sampleM =
      .error .valueError :=
    mod_top_zero_err _ sampleM rfl hlen hnz sampleM_ne_zero sampleM_top_digit
  unfold modSub
  rw [sub_sample_eq, ebind_ok]
  exact herr

/-! Section: The claims -/

/-- Claim C1.  The claim states that `Multiply(a, Zero)` returns the
all-zero value.  On the code this is false: for every value of the
program's (default, shared) capacity 2048 whose digits lie in `[0, base)`,
`__mul__` raises `IndexError` — its carry write `result.value[i+j+1] += …`
reads index `size` of the 2048-slot result at `i = 0, j = size-1`.  The
theorem records the actual behaviour supporting the code-bug verdict. -/
theorem claim_C1_mul_zero_index_error (a : BigInt) (hs : a.size = 2048)
    (hla : a.value.length = 2048) (hd : ∀ d ∈ a.value, 0 ≤ d ∧ d < a.base) :
    mul a defaultBig = .error .indexError := by
  have hne : a.value ≠ [] := by
    intro h
    rw [h] at hla
    exact absurd hla (by decide)
  obtain ⟨x, hx⟩ := List.exists_mem_of_ne_nil _ hne
  have hbase : 0 < a.base := lt_of_le_of_lt (hd x hx).1 (hd x hx).2
  have hdl : (2048:Nat) ≤ defaultBig.value.length :=
    le_of_eq (List.length_replicate 2048 (0:Int)).symm
  exact mul_index_error a defaultBig hs hne hdl (by omega)

/-- Witness for C1 at the demo value `BigInt(12345)`. -/
theorem claim_C1_witness : mul sampleA defaultBig = .error .indexError :=
  claim_C1_mul_zero_index_error sampleA rfl sampleA_length sampleA_bounds

/-- Claim C2, counterexample.  `ModAdd(12345, 67890, 100)` does not return
the value 45 (it raises the zero-modulus `ValueError` instead, because the
reduction loop divides by the top digit of 100, which is 0 at size 2048). -/
theorem claim_C2_counterexample :
    ¬ (modAdd sampleA sampleB sampleM = Except.ok (BigInt.ofInt 45 10 2048)) := by
  intro h
  rw [modAdd_sample_err] at h
  exact Except.noConfusion h

/-- Claim C2, amended: on the sample operands with modulus 100 both
`ModAdd` and `ModSub` fail with the zero-modulus `ValueError`; no value
(in particular not `(a+b) mod 100`) is returned. -/
theorem claim_C2_amended :
    modAdd sampleA sampleB sampleM = .error .valueError ∧
    modSub sampleA sampleB sampleM = .error .valueError :=
  ⟨modAdd_sample_err, modSub_sample_err⟩

/-- Claim C3, counterexample.  Shift-right-by-limbs produces a value whose
digit-array length (2047) differs from its `size` field (2048), so the
`len(digits) == size` invariant is not preserved by every operation. -/
theorem claim_C3_counterexample :
    (rshift sampleA 1).value.length ≠ (rshift sampleA 1).size := by
  have h1 : (rshift sampleA 1).size = 2048 := rfl
  have h2 : (rshift sampleA 1).value.length = 2047 := by
    show (sampleA.value.drop 1).length = 2047
    rw [List.length_drop, sampleA_length]
  rw [h1, h2]
  decide

/-- Claim C3, amended: construction from a native int, and the completed
add / subtract / modulo operations, do produce `len(digits) = size`; but
`from_str` yields `len = len(input)` and shift-right yields
`len = 2048 - shift`, which break the invariant whenever they differ from
`size`. -/
theorem claim_C3_amended (a b : BigInt) (hs : a.size = 2048) (hla : a.value.length = 2048)
    (hlb : b.value.length = 2048) (hda : ∀ d ∈ a.value, 0 ≤ d ∧ d < a.base) :
    (∀ (v bb : Int) (ss : Nat),
      (BigInt.ofInt v bb ss).value.length = ss ∧ (BigInt.ofInt v bb ss).size = ss) ∧
    (∃ s, add a b = .ok s ∧ s.value.length = s.size) ∧
    (∃ t, sub a b = .ok t ∧ t.value.length = t.size) ∧
    (∀ m r, mod a m = .ok r → r.value.length = r.size) ∧
    (∀ k : Nat, (rshift a k).value.length = 2048 - k ∧ (rshift a k).size = 2048) ∧
    (∀ (cs : List Char) (bb : Int) (ss : Nat) (r : BigInt),
      fromStr cs bb ss = .ok r → r.value.length = cs.length) := by
  have hne : a.value ≠ [] := by
    intro h
    rw [h] at hla
    exact absurd hla (by decide)
  obtain ⟨x, hx⟩ := List.exists_mem_of_ne_nil _ hne
  have hbase : 0 < a.base := lt_of_le_of_lt (hda x hx).1 (hda x hx).2
  refine ⟨?_, ?_, ?_, ?_, ?_, ?_⟩
  · intro v bb ss
    exact ⟨fromIntList_length bb v ss, rfl⟩
  · refine ⟨_, add_eq a b (by omega) hs hla hlb, ?_⟩
    show (addDigits a.base a.value b.value 0).length = 2048
    rw [addDigits_length a.value b.value 0 a.base (by rw [hla, hlb]), hla]
  · refine ⟨_, sub_eq a b hs hla hlb, ?_⟩
    show (subDigits a.base a.value b.value 0).length = 2048
    rw [subDigits_length a.value b.value 0 a.base (by rw [hla, hlb]), hla]
  · intro m r h
    exact mod_ok_length hs hla h
  · intro k
    constructor
    · show (a.value.drop k).length = 2048 - k
      rw [List.length_drop, hla]
    · rfl
  · intro cs bb ss r h
    unfold fromStr at h
    rw [emap_ok_iff] at h
    obtain ⟨ds, hds, rfl⟩ := h
    show ds.length = cs.length
    rw [parseDigits_ok_length cs.reverse bb ds hds, List.length_reverse]

/-- Witness for C3 (amended) at the demo values. -/
theorem claim_C3_witness :
    ∃ s, add sampleA sampleB = .ok s ∧ s.value.length = s.size :=
  (claim_C3_amended sampleA sampleB rfl sampleA_length sampleB_length sampleA_bounds).2.1

/-- Claim C4, counterexample.  `ModPow(1, 0, 2)` does not return One: the
initial reduction `base_power = self % mod` is computed before the loop,
and `1 % 2` raises the zero-modulus `ValueError` (the top digit of the
2048-digit modulus 2 is 0). -/
theorem claim_C4_counterexample :
    modPow (BigInt.ofInt 1 10 2048) 0 (BigInt.ofInt 2 10 2048) = .error .valueError := by
  have herr : mod (BigInt.ofInt 1 10 2048) (BigInt.ofInt 2 10 2048) = .error .valueError := by
    apply mod_top_zero_err
    · rfl
    · exact fromIntList_length 10 1 2048
    · apply all_eq_false_of_nonzero
      refine ⟨1, ?_, by decide⟩
      rw [ofInt_one_value]
      exact List.mem_cons_self _ _
    · exact ofInt_two_ne_zero
    · exact ofInt_two_top_digit
  unfold modPow
  rw [herr, ebind_err]

/-- Claim C4, amended: `ModPow(a, 0, m)` returns One whenever the initial
reduction `a % m` succeeds (in particular when `a` is Zero); when that
reduction fails, `mod_pow` propagates its error even though the exponent
is 0. -/
theorem claim_C4_amended (a m r : BigInt) (h : mod a m = .ok r) :
    modPow a 0 m = .ok (BigInt.ofInt 1 10 2048) := by
  unfold modPow
  rw [h, ebind_ok]
  unfold modPowLoop
  rfl

/-- Witness for C4 (amended): `a = Zero`, `m = 2`. -/
theorem claim_C4_witness :
    modPow defaultBig 0 (BigInt.ofInt 2 10 2048) = .ok (BigInt.ofInt 1 10 2048) :=
  claim_C4_amended defaultBig (BigInt.ofInt 2 10 2048) defaultBig
    (mod_of_zero_self _ ofInt_two_ne_zero)

/-- Claim C5: for every value `x`, `modulo(x, Zero)` fails with the
zero-modulus `ValueError` (the first check `mod == BigInt()` fires). -/
theorem claim_C5_mod_zero_modulus (x : BigInt) :
    mod x defaultBig = .error .valueError := by
  have hz : beq defaultBig defaultBig = true := by
    unfold beq
    exact beq_self_eq_true _
  unfold mod
  rw [hz, Bool.true_or, if_pos rfl]

/-- Claim C6.  The claim states `LCM(a, Zero) = Zero`.  On the code this
only happens for `a = Zero`: for a nonzero full-size `a`, `gcd(a, Zero) = a`
is nonzero, so `lcm` evaluates `self * other`, and `__mul__` raises
`IndexError` (and even with a working multiply, `//` on two `BigInt`s would
raise `TypeError`, since no `__floordiv__` is defined).  The theorem
records the actual behaviour supporting the code-bug verdict. -/
theorem claim_C6_lcm_zero_index_error (fuel : Nat) (a : BigInt) (hs : a.size = 2048)
    (hla : a.value.length = 2048) (hd : ∀ d ∈ a.value, 0 ≤ d ∧ d < a.base)
    (hnz : a.value ≠ List.replicate 2048 0) :
    lcm fuel a defaultBig = some (.error .indexError) := by
  have hne : a.value ≠ [] := by
    intro h
    rw [h] at hla
    exact absurd hla (by decide)
  obtain ⟨x, hx⟩ := List.exists_mem_of_ne_nil _ hne
  have hbase : 0 < a.base := lt_of_le_of_lt (hd x hx).1 (hd x hx).2
  have hdl : (2048:Nat) ≤ defaultBig.value.length :=
    le_of_eq (List.length_replicate 2048 (0:Int)).symm
  have hmul : mul a defaultBig = .error .indexError :=
    mul_index_error a defaultBig hs hne hdl (by omega)
  have hbeqf : beq a defaultBig = false := by
    unfold beq
    exact beq_eq_false_iff_ne.mpr hnz
  unfold lcm
  rw [gcdLoop_zero_of_zero a defaultBig rfl fuel]
  show (if beq a defaultBig then some (Except.ok defaultBig)
    else some (match mul a defaultBig with
      | .error e => Except.error e
      | .ok _ => Except.error PyErr.typeError)) = some (Except.error PyErr.indexError)
  rw [hbeqf, if_neg Bool.false_ne_true, hmul]

/-- Witness for C6 at the demo value `BigInt(12345)`. -/
theorem claim_C6_witness : lcm 0 sampleA defaultBig = some (.error .indexError) :=
  claim_C6_lcm_zero_index_error 0 sampleA rfl sampleA_length sampleA_bounds
    (ne_replicate_of_nonzero sampleA_nonzero_digit)

/-- Claim C7: `GCD(a, Zero)` returns `a` immediately (for any iteration
budget), and for any two full-size values the Euclidean loop
`(a, b) := (b, a mod b)` reaches an outcome — normal exit at `b = Zero` or
a failing modulo call — after finitely many iterations. -/
theorem claim_C7_gcd_terminates (a b : BigInt) (hsa : a.size = 2048)
    (hla : a.value.length = 2048) (hsb : b.size = 2048) (hlb : b.value.length = 2048)
    (hdb : ∀ d ∈ b.value, 0 ≤ d ∧ d < b.base) :
    (∀ fuel, gcdLoop fuel a defaultBig = some (.ok a)) ∧
    (∃ n res, gcdLoop n a b = some res) :=
  ⟨fun fuel => gcdLoop_zero_of_zero a defaultBig rfl fuel,
   gcd_terminates_aux (digitsSum b.value + 1) a b hsa hla hsb hlb
     (fun d hd => (hdb d hd).1) (by omega)⟩

/-- Witness for C7 at the demo values 12345 and 67890. -/
theorem claim_C7_witness : ∃ n res, gcdLoop n sampleA sampleB = some res :=
  (claim_C7_gcd_terminates sampleA sampleB rfl sampleA_length rfl sampleB_length
    sampleB_bounds).2

/-- Claim C8: for full-size operands with digits in `[0, base)`, the value
encoded by `Add(a, b)` is `(value a + value b) mod base^2048`, the value
encoded by `Subtract(a, b)` is `(value a - value b) mod base^2048`
(wrapping), and all result digits lie in `[0, base)` again. -/
theorem claim_C8_add_sub_wraparound (a b : BigInt) (hs : a.size = 2048)
    (hla : a.value.length = 2048) (hlb : b.value.length = 2048)
    (hda : ∀ d ∈ a.value, 0 ≤ d ∧ d < a.base)
    (hdb : ∀ d ∈ b.value, 0 ≤ d ∧ d < a.base) :
    ∃ s t : BigInt, add a b = .ok s ∧ sub a b = .ok t ∧
      Int.ModEq (a.base ^ 2048) (digitsVal a.base s.value)
        (digitsVal a.base a.value + digitsVal a.base b.value) ∧
      (∀ d ∈ s.value, 0 ≤ d ∧ d < a.base) ∧
      Int.ModEq (a.base ^ 2048) (digitsVal a.base t.value)
        (digitsVal a.base a.value - digitsVal a.base b.value) ∧
      (∀ d ∈ t.value, 0 ≤ d ∧ d < a.base) := by
  have hne : a.value ≠ [] := by
    intro h
    rw [h] at hla
    exact absurd hla (by decide)
  obtain ⟨x, hx⟩ := List.exists_mem_of_ne_nil _ hne
  have hbase : 0 < a.base := lt_of_le_of_lt (hda x hx).1 (hda x hx).2
  have hlen : a.value.length = b.value.length := by rw [hla, hlb]
  refine ⟨⟨10, 2048, addDigits a.base a.value b.value 0⟩,
    ⟨10, 2048, subDigits a.base a.value b.value 0⟩,
    add_eq a b (by omega) hs hla hlb, sub_eq a b hs hla hlb, ?_, ?_, ?_, ?_⟩
  · obtain ⟨cout, hval⟩ := addDigits_val a.value b.value 0 a.base hlen
    rw [hla] at hval
    show Int.ModEq (a.base ^ 2048) (digitsVal a.base (addDigits a.base a.value b.value 0)) _
    exact Int.modEq_iff_dvd.mpr ⟨cout, by linarith⟩
  · show ∀ d ∈ addDigits a.base a.value b.value 0, 0 ≤ d ∧ d < a.base
    exact addDigits_bounds a.value b.value 0 a.base hbase
  · obtain ⟨bout, hval⟩ := subDigits_val a.value b.value 0 a.base hlen
    rw [hla] at hval
    show Int.ModEq (a.base ^ 2048) (digitsVal a.base (subDigits a.base a.value b.value 0)) _
    exact Int.modEq_iff_dvd.mpr ⟨bout, by linarith⟩
  · show ∀ d ∈ subDigits a.base a.value b.value 0, 0 ≤ d ∧ d < a.base
    exact subDigits_bounds a.value b.value 0 a.base hda hdb (Or.inl rfl)

/-- Witness for C8 at the demo values 12345 and 67890. -/
theorem claim_C8_witness :
    ∃ s t : BigInt, add sampleA sampleB = .ok s ∧ sub sampleA sampleB = .ok t ∧
      Int.ModEq (sampleA.base ^ 2048) (digitsVal sampleA.base s.value)
        (digitsVal sampleA.base sampleA.value + digitsVal sampleA.base sampleB.value) ∧
      (∀ d ∈ s.value, 0 ≤ d ∧ d < sampleA.base) ∧
      Int.ModEq (sampleA.base ^ 2048) (digitsVal sampleA.base t.value)
        (digitsVal sampleA.base sampleA.value - digitsVal sampleA.base sampleB.value) ∧
      (∀ d ∈ t.value, 0 ≤ d ∧ d < sampleA.base) :=
  claim_C8_add_sub_wraparound sampleA sampleB rfl sampleA_length sampleB_length
    sampleA_bounds sampleB_bounds

/-- Claim C9: for every full-size value with digits in `[0, base)`,
`Add(a, Zero) == a` and `Subtract(a, Zero) == a` under the engine's
element-wise digit equality. -/
theorem claim_C9_add_sub_identity (a : BigInt) (hs : a.size = 2048)
    (hla : a.value.length = 2048) (hd : ∀ d ∈ a.value, 0 ≤ d ∧ d < a.base) :
    ∃ s t : BigInt, add a defaultBig = .ok s ∧ beq s a = true ∧
      sub a defaultBig = .ok t ∧ beq t a = true := by
  have hne : a.value ≠ [] := by
    intro h
    rw [h] at hla
    exact absurd hla (by decide)
  obtain ⟨x, hx⟩ := List.exists_mem_of_ne_nil _ hne
  have hbase : 0 < a.base := lt_of_le_of_lt (hd x hx).1 (hd x hx).2
  have hdl : defaultBig.value.length = 2048 := List.length_replicate 2048 0
  have hrepl : defaultBig.value = List.replicate 2048 0 := rfl
  have haz : addDigits a.base a.value defaultBig.value 0 = a.value := by
    rw [hrepl]
    exact addDigits_zero_right a.value 2048 a.base hla hd
  have hsz : subDigits a.base a.value defaultBig.value 0 = a.value := by
    rw [hrepl]
    exact subDigits_zero_right a.value 2048 a.base hla hd
  refine ⟨_, _, add_eq a defaultBig (by omega) hs hla hdl, ?_,
    sub_eq a defaultBig hs hla hdl, ?_⟩
  · show beq ⟨10, 2048, addDigits a.base a.value defaultBig.value 0⟩ a = true
    unfold beq
    show (addDigits a.base a.value defaultBig.value 0 == a.value) = true
    rw [haz]
    exact beq_self_eq_true _
  · show beq ⟨10, 2048, subDigits a.base a.value defaultBig.value 0⟩ a = true
    unfold beq
    show (subDigits a.base a.value defaultBig.value 0 == a.value) = true
    rw [hsz]
    exact beq_self_eq_true _

/-- Witness for C9 at the demo value `BigInt(12345)`. -/
theorem claim_C9_witness :
    ∃ s t : BigInt, add sampleA defaultBig = .ok s ∧ beq s sampleA = true ∧
      sub sampleA defaultBig = .ok t ∧ beq t sampleA = true :=
  claim_C9_add_sub_identity sampleA rfl sampleA_length sampleA_bounds

/-- Claim C10: for a nonzero full-size value and a full-size modulus that
is not all zeros but has most-significant digit 0 (such as the demo
modulus 100), `modulo` fails with the same zero-modulus `ValueError`, so
no remainder is ever returned for such moduli. -/
theorem claim_C10_mod_zero_top_digit (a m : BigInt) (hsa : a.size = 2048)
    (hla : a.value.length = 2048) (hnz : ∃ d ∈ a.value, d ≠ 0)
    (_hlm : m.value.length = 2048) (hm : m.value ≠ List.replicate 2048 0)
    (hm0 : m.value.get? 2047 = some 0) :
    mod a m = .error .valueError :=
  mod_top_zero_err a m hsa hla (all_eq_false_of_nonzero hnz) hm hm0

/-- Witness for C10: `a = 12345`, `m = 100`. -/
theorem claim_C10_witness : mod sampleA sampleM = .error .valueError :=
  claim_C10_mod_zero_top_digit sampleA sampleM rfl sampleA_length sampleA_nonzero_digit
    sampleM_length sampleM_ne_zero sampleM_top_digit

end Lab2
